import Mathlib

/-!
Verification of the merge-and-bounded-aggregation engine of `src/cli/main.py`.

The source is a Python program; we give a shallow embedding of its core:

* `Multi` — the k-way time-ordered merge (`Multi.__init__`, `Multi.__next__`,
  `Multi.timesort`).  A stream is a `List Event`; an internal entry of
  `Multi.datas` is the pair of the current head row and the rest of that
  stream.  Python's `sorted` is a stable sort, and a stable sort by a key is
  unique, so it is modelled by `List.insertionSort` on the timestamp key
  (Mathlib's insertion sort is stable: an element is inserted before the
  equal-key elements that followed it).
* `Process.process` — the aggregation loop (lines 202–251), the final drain
  (lines 255–256), the eviction scan (lines 234–239), and the sink
  (`Process.writedata`, lines 134–144).  Python dicts are insertion-ordered,
  so `patients` and `counts` are association lists: assignment to a present
  key updates in place, a fresh key is appended at the end, `del` removes
  the entry.  Timestamps are totally ordered values, modelled by `Nat`.
  The unbound-variable failure of the eviction scan on an empty window
  (Python `NameError` on `opt`) is modelled by `Option`: a step returns
  `none` when Python would crash.  `npatients` comes from `argparse`
  with `type=int`, so the capacity is modelled as an `Int`.
-/

/-- One parsed row, as produced by `InputStream.__next__`: `patient_id`,
`event_type`, the parsed ordering `timestamp` and the integer `value`. -/
structure Event where
  patient_id : String
  event_type : String
  timestamp : Nat
  value : Int
deriving DecidableEq, Repr

/-- One entry of `Multi.datas`: the current head `row` of a stream together
with the not-yet-consumed rest of the same stream. -/
abbrev DEntry : Type := Event × List Event

/-- Comparison of two `Multi.datas` entries by the sort key of
`Multi.timesort`: the timestamp of the current head row. -/
def dLe (a b : DEntry) : Prop := a.1.timestamp ≤ b.1.timestamp

instance : DecidableRel dLe := fun a b => Nat.decLe a.1.timestamp b.1.timestamp

instance : IsTotal DEntry dLe := ⟨fun a b => Nat.le_total a.1.timestamp b.1.timestamp⟩

instance : IsTrans DEntry dLe := ⟨fun _ _ _ h h' => Nat.le_trans h h'⟩

/-- `Multi.timesort`: Python's stable `sorted` keyed by `row["timestamp"]`,
modelled as the (stable) insertion sort on `dLe`. -/
def timesort (array : List DEntry) : List DEntry :=
  List.insertionSort dLe array

/-- The initial entry built for one stream in `Multi.__init__`: its first
row and the remaining rows, or nothing when the stream is empty
(`StopIteration` on the first `next`). -/
def initEntry : List Event → Option DEntry
  | [] => none
  | row :: rest => some (row, rest)

/-- `Multi.__init__`: pull the first row of each stream, in registration
order, dropping exhausted streams, then `timesort` the entries. -/
def multiInit (streams : List (List Event)) : List DEntry :=
  timesort (streams.filterMap initEntry)

/-- `Multi.__next__`: emit the head row of the first (earliest) entry; pull
the next row of the same stream and re-sort, or drop the entry when the
stream is exhausted.  `none` is `StopIteration` on an empty `datas`. -/
def multiNext : List DEntry → Option (Event × List DEntry)
  | [] => none
  | (row, rest) :: others =>
    match rest with
    | [] => some (row, others)
    | r :: rs => some (row, timesort ((r, rs) :: others))

/-- Total number of events still held in the merger's state. -/
def stateSize (s : List DEntry) : Nat :=
  (s.map fun p => p.2.length + 1).sum

/-- All events still held in the merger's state, current heads included. -/
def stateEvents (s : List DEntry) : List Event :=
  s.flatMap fun p => p.1 :: p.2

/-- Fuel-indexed iteration of `Multi.__next__` to exhaustion. -/
def multiRunF : Nat → List DEntry → List Event
  | 0, _ => []
  | fuel + 1, s =>
    match multiNext s with
    | none => []
    | some (e, s') => e :: multiRunF fuel s'

/-- The full sequence of events emitted by the `Multi` iterator from a given
state; `stateSize` fuel always suffices. -/
def multiRun (s : List DEntry) : List Event :=
  multiRunF (stateSize s) s

/-- An in-progress patient record, the value `patients[patient_id]`: the
mapping from event type to latest value (insertion-ordered, the Python dict
without its `"timestamp"` key) together with the bookkeeping `"timestamp"`
entry holding the time of the most recent update. -/
structure Record where
  fields : List (String × Int)
  timestamp : Nat
deriving DecidableEq, Repr

/-- First-match lookup in an insertion-ordered dict (keys are unique by
construction, as in a Python dict). -/
def lookupA {α : Type} : List (String × α) → String → Option α
  | [], _ => none
  | (k, v) :: rest, key => if k = key then some v else lookupA rest key

/-- Python dict assignment to a key that is already present: the entry keeps
its position, only the value changes. -/
def updateA {α : Type} (l : List (String × α)) (key : String) (v : α) :
    List (String × α) :=
  l.map fun p => if p.1 = key then (key, v) else p

/-- Python `del d[key]`: remove the (unique) entry with that key. -/
def removeA {α : Type} (l : List (String × α)) (key : String) :
    List (String × α) :=
  l.eraseP fun p => p.1 = key

/-- The eviction scan of `Process.process` lines 236–239, after the first
iteration has set `ots`/`opt` (`ots is None` only holds on entry): each later
record replaces the candidate exactly when its `data["timestamp"]` is
strictly smaller than the current `ots`. -/
def findOldestGo (opt : String) (ots : Nat) : List (String × Record) → String × Nat
  | [] => (opt, ots)
  | (pt, data) :: rest =>
    if data.timestamp < ots then findOldestGo pt data.timestamp rest
    else findOldestGo opt ots rest

/-- The whole eviction scan, lines 234–239: `ots` starts as `None`, so a
non-empty window always binds `opt`/`ots` at its first record; on an empty
window they stay unbound (`none`). -/
def findOldest (patients : List (String × Record)) : Option (String × Nat) :=
  match patients with
  | [] => none
  | (pt, data) :: rest => some (findOldestGo pt data.timestamp rest)

/-- Python `row["event_type"] in patients[patient_id]` restricted to the
event-type keys of the record. -/
def hasField (rec : Record) (et : String) : Bool :=
  (lookupA rec.fields et).isSome

/-- Lines 204–207: `counts[et] = 0` when absent, then `counts[et] += 1`. -/
def incrCount (counts : List (String × Nat)) (et : String) : List (String × Nat) :=
  match lookupA counts et with
  | some n => updateA counts et (n + 1)
  | none => counts ++ [(et, 1)]

/-- The count recorded for an event type, `0` when the key is absent. -/
def countOf (counts : List (String × Nat)) (et : String) : Nat :=
  (lookupA counts et).getD 0

/-- The sum of all recorded counts. -/
def countsSum (counts : List (String × Nat)) : Nat :=
  (counts.map fun p => p.2).sum

/-- `json.dumps(data, indent=2)` on the flat string-to-integer dict that
remains after `del data["timestamp"]`. -/
def jsonDumps (fields : List (String × Int)) : String :=
  match fields with
  | [] => "\x7b\x7d"
  | _ =>
    "\x7b\n" ++
      String.intercalate ",\n"
        (fields.map fun kv => "  \x22" ++ kv.1 ++ "\x22: " ++ toString kv.2) ++
      "\n\x7d"

/-- The text `Process.writedata` emits for one record (lines 141–144): the
keyed entry, with the `"timestamp"` bookkeeping entry deleted first. -/
def entryText (patient_id : String) (data : Record) : String :=
  "    \x22" ++ patient_id ++ "\x22:" ++ jsonDumps data.fields

/-- The sink's state: the `firstpatient` flag (line 169) and the text written
so far through `writedata`. -/
structure SinkState where
  firstpatient : Bool
  text : String
deriving DecidableEq, Repr

/-- `Process.writedata` (lines 134–144): a `",\n"` separator line is written
before every entry except the first. -/
def writedata (sink : SinkState) (patient_id : String) (data : Record) : SinkState :=
  { firstpatient := false,
    text := sink.text ++
      (if sink.firstpatient then entryText patient_id data
       else ",\n" ++ entryText patient_id data) }

/-- The mutable state of the processing loop: the `counts` dict, the
`patients` window, the row counter, the sink, and (for specification only)
the list of flushed records in flush order. -/
structure ProcState where
  counts : List (String × Nat)
  patients : List (String × Record)
  nrows : Nat
  sink : SinkState
  flushed : List (String × Record)
deriving DecidableEq, Repr

/-- State on entry to the loop (lines 168–199). -/
def initState : ProcState :=
  { counts := [], patients := [], nrows := 0,
    sink := { firstpatient := true, text := "" }, flushed := [] }

/-- Flush one record: `writedata` plus the specification-level trace. -/
def emitRecord (s : ProcState) (patient_id : String) (data : Record) : ProcState :=
  { s with sink := writedata s.sink patient_id data,
           flushed := s.flushed ++ [(patient_id, data)] }

/-- One iteration of the loop `for row in multi` (lines 202–251), for a
capacity `npatients`.  `none` models the Python crash (`NameError`/`KeyError`)
when the eviction scan finds no record. -/
def step (npatients : Int) (s : ProcState) (row : Event) : Option ProcState :=
  let s := { s with counts := incrCount s.counts row.event_type, nrows := s.nrows + 1 }
  let newrec : Record := { fields := [(row.event_type, row.value)], timestamp := row.timestamp }
  match lookupA s.patients row.patient_id with
  | some rec =>
    if hasField rec row.event_type then
      -- duplicate event for same patient: emit previous record, start new
      some { emitRecord s row.patient_id rec with
             patients := updateA s.patients row.patient_id newrec }
    else
      -- existing patient, new event: update record in place
      let urec : Record :=
        { fields := rec.fields ++ [(row.event_type, row.value)], timestamp := row.timestamp }
      some { s with patients := updateA s.patients row.patient_id urec }
  | none =>
    -- new patient: make room if needed, then start new record
    let inserted := fun (s' : ProcState) =>
      { s' with patients := s'.patients ++ [(row.patient_id, newrec)] }
    if (s.patients.length : Int) > npatients then
      match findOldest s.patients with
      | none => none
      | some (opt, _) =>
        match lookupA s.patients opt with
        | none => none
        | some orec =>
          some (inserted
            { emitRecord s opt orec with patients := removeA s.patients opt })
    else
      some (inserted s)

/-- The whole loop over the merged rows. -/
def processEvents (npatients : Int) (events : List Event) : Option ProcState :=
  events.foldlM (step npatients) initState

/-- The final drain, lines 255–256: write every remaining record, in the
window's iteration order. -/
def drain (s : ProcState) : ProcState :=
  s.patients.foldl (fun s' pd => emitRecord s' pd.1 pd.2) s

/-- The loop followed by the final drain. -/
def processRun (npatients : Int) (events : List Event) : Option ProcState :=
  (processEvents npatients events).map drain

/-- Separator placed between consecutive entries, never before the first or
after the last. -/
def joinSep (sep : String) : List String → String
  | [] => ""
  | [x] => x
  | x :: y :: rest => x ++ sep ++ joinSep sep (y :: rest)

/-- Python `repr` of a list of strings, as printed by the error f-string. -/
def listRepr (l : List String) : String :=
  "[" ++ String.intercalate ", " (l.map fun s => "\x27" ++ s ++ "\x27") ++ "]"

/-- Outcome of the start of `Process.process` (lines 151–174): whether the
run exited (and with which code), the error message printed, and whether the
output file was opened. -/
structure TopOutcome where
  exitCode : Option Nat
  errMessage : Option String
  outputOpened : Bool
deriving DecidableEq, Repr

/-- Lines 151–174 of `Process.process`: the export ID is checked against the
collaborator's `export_ids` before the output file is opened; `Process.error`
prints the message and exits with status 1. -/
def processTop (exportID : String) (export_ids : List String) : TopOutcome :=
  if exportID ∈ export_ids then
    { exitCode := none, errMessage := none, outputOpened := true }
  else
    { exitCode := some 1,
      errMessage := some ("exportID " ++ exportID ++ " not in " ++ listRepr export_ids),
      outputOpened := false }

/-- Ordering of events by timestamp (the merge's output ordering). -/
def evLe (a b : Event) : Prop := a.timestamp ≤ b.timestamp

instance : DecidableRel evLe := fun a b => Nat.decLe a.timestamp b.timestamp

/-- A merger entry is well-formed when its head row is no later than any row
of its remaining stream and the remaining stream is itself time-sorted. -/
def goodEntry (p : DEntry) : Prop := List.Pairwise evLe (p.1 :: p.2)

/-- Invariant of `Multi.datas`: every entry is well-formed and the entries
are sorted by head timestamp. -/
def InvM (s : List DEntry) : Prop :=
  (∀ p ∈ s, goodEntry p) ∧ List.Pairwise dLe s

/-- The first entry of the list attaining the minimal head timestamp: a later
entry displaces an earlier one only with a strictly smaller timestamp. -/
def firstMinD : List DEntry → Option DEntry
  | [] => none
  | x :: xs =>
    match firstMinD xs with
    | none => some x
    | some m => if m.1.timestamp < x.1.timestamp then some m else some x

/-- Keys of a dict are unique, as in a Python dict. -/
def keysOk {α : Type} (l : List (String × α)) : Prop := (l.map Prod.fst).Nodup

/-- The `counts` dict as a function of the rows processed so far, starting
from the empty dict of line 168. -/
def countsFold (events : List Event) : List (String × Nat) :=
  events.foldl (fun c e => incrCount c e.event_type) []

/-- The keyed-entry text of one flushed record. -/
def entryOf (pr : String × Record) : String := entryText pr.1 pr.2

/-- Relation between the sink's incremental state and the flush trace: the
text written so far is the entries of the flushed records, in flush order,
separated (not terminated) by the separator line, and `firstpatient` holds
exactly while nothing has been flushed. -/
def sinkOk (s : ProcState) : Prop :=
  s.sink.text = joinSep ",\n" (s.flushed.map entryOf) ∧
  s.sink.firstpatient = s.flushed.isEmpty

/-- The invariant of the processing loop after the rows `events` have been
consumed: bounded window, counts as a pure function of the rows seen,
row counter, and sink/trace coherence. -/
def PInv (K : Int) (events : List Event) (s : ProcState) : Prop :=
  (s.patients.length : Int) ≤ K + 1 ∧
  s.counts = countsFold events ∧
  s.nrows = events.length ∧
  sinkOk s

theorem timesort_perm (l : List DEntry) : (timesort l).Perm l :=
  List.perm_insertionSort dLe l

theorem timesort_sorted (l : List DEntry) : List.Pairwise dLe (timesort l) :=
  List.sorted_insertionSort dLe l

theorem stateSize_congr {l l' : List DEntry} (h : l.Perm l') :
    stateSize l = stateSize l' :=
  (h.map _).sum_eq

theorem stateEvents_perm {l l' : List DEntry} (h : l.Perm l') :
    (stateEvents l).Perm (stateEvents l') :=
  h.flatMap_right _

theorem stateSize_cons (p : DEntry) (l : List DEntry) :
    stateSize (p :: l) = p.2.length + 1 + stateSize l := by
  simp [stateSize, Nat.add_comm]

theorem stateEvents_cons (p : DEntry) (l : List DEntry) :
    stateEvents (p :: l) = p.1 :: (p.2 ++ stateEvents l) := by
  simp [stateEvents]

theorem stateSize_eq_zero {s : List DEntry} (h : stateSize s = 0) : s = [] := by
  cases s with
  | nil => rfl
  | cons p l => rw [stateSize_cons] at h; omega

theorem multiNext_eq_none {s : List DEntry} : multiNext s = none ↔ s = [] := by
  cases s with
  | nil => simp [multiNext]
  | cons p l =>
    obtain ⟨row, rest⟩ := p
    cases rest <;> simp [multiNext]

theorem multiNext_size {s s' : List DEntry} {e : Event}
    (h : multiNext s = some (e, s')) : stateSize s = stateSize s' + 1 := by
  cases s with
  | nil => simp [multiNext] at h
  | cons p others =>
    obtain ⟨row, rest⟩ := p
    cases rest with
    | nil =>
      simp [multiNext] at h
      rw [stateSize_cons, ← h.2]
      simp [Nat.add_comm]
    | cons r rs =>
      simp [multiNext] at h
      rw [stateSize_cons, ← h.2, stateSize_congr (timesort_perm _), stateSize_cons]
      simp
      omega

theorem multiNext_events {s s' : List DEntry} {e : Event}
    (h : multiNext s = some (e, s')) : (stateEvents s).Perm (e :: stateEvents s') := by
  cases s with
  | nil => simp [multiNext] at h
  | cons p others =>
    obtain ⟨row, rest⟩ := p
    cases rest with
    | nil =>
      simp [multiNext] at h
      rw [stateEvents_cons, ← h.2, h.1]
      simp
    | cons r rs =>
      simp [multiNext] at h
      rw [stateEvents_cons, ← h.2, h.1]
      refine List.Perm.cons _ ?_
      refine List.Perm.trans ?_ (stateEvents_perm (timesort_perm _)).symm
      rw [stateEvents_cons]
      simp

theorem multiRunF_perm :
    ∀ (fuel : Nat) (s : List DEntry), stateSize s ≤ fuel →
      (multiRunF fuel s).Perm (stateEvents s) := by
  intro fuel
  induction fuel with
  | zero =>
    intro s hs
    rw [stateSize_eq_zero (Nat.le_zero.mp hs)]
    exact List.Perm.refl _
  | succ n ih =>
    intro s hs
    match h : multiNext s with
    | none =>
      rw [multiNext_eq_none.mp h]
      simp [multiRunF, multiNext, stateEvents]
    | some (e, s') =>
      have hsz := multiNext_size h
      have : (multiRunF (n + 1) s) = e :: multiRunF n s' := by
        simp [multiRunF, h]
      rw [this]
      exact ((ih s' (by omega)).cons e).trans (multiNext_events h).symm

theorem multiRun_perm (s : List DEntry) : (multiRun s).Perm (stateEvents s) :=
  multiRunF_perm (stateSize s) s (Nat.le_refl _)

theorem goodEntry_head_le {p : DEntry} (h : goodEntry p) :
    ∀ x ∈ p.2, p.1.timestamp ≤ x.timestamp := by
  intro x hx
  exact (List.pairwise_cons.mp h).1 x hx

theorem stateEvents_le {s : List DEntry} (hgood : ∀ p ∈ s, goodEntry p)
    {t : Nat} (hheads : ∀ p ∈ s, t ≤ p.1.timestamp) :
    ∀ x ∈ stateEvents s, t ≤ x.timestamp := by
  intro x hx
  rw [stateEvents, List.mem_flatMap] at hx
  obtain ⟨p, hp, hxp⟩ := hx
  rcases List.mem_cons.mp hxp with h | h
  · exact h ▸ hheads p hp
  · exact Nat.le_trans (hheads p hp) (goodEntry_head_le (hgood p hp) x h)

/-- One `Multi.__next__` step preserves the merger invariant, and the emitted
event is no later than every event still held. -/
theorem multiNext_invM {s s' : List DEntry} {e : Event} (hinv : InvM s)
    (h : multiNext s = some (e, s')) :
    InvM s' ∧ ∀ x ∈ stateEvents s', e.timestamp ≤ x.timestamp := by
  obtain ⟨hgood, hsort⟩ := hinv
  cases s with
  | nil => simp [multiNext] at h
  | cons p others =>
    obtain ⟨row, rest⟩ := p
    have hgrow : goodEntry (row, rest) := hgood _ (List.mem_cons_self _ _)
    have hheads : ∀ q ∈ others, row.timestamp ≤ q.1.timestamp :=
      (List.pairwise_cons.mp hsort).1
    have hgood' : ∀ q ∈ others, goodEntry q := fun q hq => hgood q (List.mem_cons_of_mem _ hq)
    cases rest with
    | nil =>
      simp [multiNext] at h
      obtain ⟨he, hs⟩ := h
      subst he hs
      refine ⟨⟨hgood', (List.pairwise_cons.mp hsort).2⟩, ?_⟩
      exact stateEvents_le hgood' hheads
    | cons r rs =>
      simp [multiNext] at h
      obtain ⟨he, hs⟩ := h
      subst he hs
      have hgr : goodEntry (r, rs) := (List.pairwise_cons.mp hgrow).2
      have hrowr : row.timestamp ≤ r.timestamp :=
        (List.pairwise_cons.mp hgrow).1 r (List.mem_cons_self _ _)
      have hgood'' : ∀ q ∈ (((r, rs) : DEntry) :: others), goodEntry q := by
        intro q hq
        rcases List.mem_cons.mp hq with h | h
        · exact h ▸ hgr
        · exact hgood' q h
      constructor
      · constructor
        · intro q hq
          exact hgood'' q ((timesort_perm _).mem_iff.mp hq)
        · exact timesort_sorted _
      · intro x hx
        have hx' := (stateEvents_perm (timesort_perm _)).mem_iff.mp hx
        refine stateEvents_le hgood'' ?_ x hx'
        intro q hq
        rcases List.mem_cons.mp hq with h | h
        · exact h ▸ hrowr
        · exact hheads q h

/-- With enough fuel, the events emitted from an invariant state are
non-decreasing in timestamp. -/
theorem multiRunF_sorted :
    ∀ (fuel : Nat) (s : List DEntry), stateSize s ≤ fuel → InvM s →
      List.Pairwise evLe (multiRunF fuel s) := by
  intro fuel
  induction fuel with
  | zero => intro s _ _; exact List.Pairwise.nil
  | succ n ih =>
    intro s hs hinv
    match h : multiNext s with
    | none => simp [multiRunF, h]
    | some (e, s') =>
      have hsz := multiNext_size h
      obtain ⟨hinv', hmin⟩ := multiNext_invM hinv h
      have hfuel : stateSize s' ≤ n := by omega
      have : (multiRunF (n + 1) s) = e :: multiRunF n s' := by simp [multiRunF, h]
      rw [this, List.pairwise_cons]
      refine ⟨?_, ih s' hfuel hinv'⟩
      intro b hb
      exact hmin b ((multiRunF_perm n s' hfuel).mem_iff.mp hb)

/-- Each initial entry of a time-sorted stream is well-formed, so the initial
merger state satisfies the invariant. -/
theorem multiInit_invM {streams : List (List Event)}
    (h : ∀ st ∈ streams, List.Pairwise evLe st) : InvM (multiInit streams) := by
  constructor
  · intro p hp
    have hp' := (timesort_perm _).mem_iff.mp hp
    rw [List.mem_filterMap] at hp'
    obtain ⟨st, hst, hinit⟩ := hp'
    cases st with
    | nil => simp [initEntry] at hinit
    | cons row rest =>
      simp [initEntry] at hinit
      subst hinit
      exact h _ hst
  · exact timesort_sorted _

/-- The events initially held by the merger are exactly the rows of all the
streams. -/
theorem stateEvents_multiInit (streams : List (List Event)) :
    (stateEvents (multiInit streams)).Perm streams.flatten := by
  refine (stateEvents_perm (timesort_perm _)).trans ?_
  induction streams with
  | nil => simp [stateEvents]
  | cons st rest ih =>
    cases st with
    | nil => simpa [initEntry] using ih
    | cons row rrest =>
      simp only [List.filterMap_cons, initEntry, List.flatten_cons]
      rw [stateEvents_cons]
      exact (ih.append_left _).cons row

/-- The head of the stable sort is the first entry of the unsorted list that
attains the minimal head timestamp: an entry is inserted before the
equal-timestamp entries that followed it, never before an earlier one. -/
theorem head_insertionSort (l : List DEntry) :
    (List.insertionSort dLe l).head? = firstMinD l := by
  induction l with
  | nil => rfl
  | cons x xs ih =>
    rw [show List.insertionSort dLe (x :: xs) =
          List.orderedInsert dLe x (List.insertionSort dLe xs) from rfl]
    cases hs : List.insertionSort dLe xs with
    | nil =>
      have hxs : xs = [] := by
        have hperm := List.perm_insertionSort dLe xs
        rw [hs] at hperm
        exact List.perm_nil.mp hperm.symm
      subst hxs
      rfl
    | cons m t =>
      have hm : firstMinD xs = some m := by rw [← ih, hs]; rfl
      rw [List.orderedInsert]
      by_cases hc : m.1.timestamp < x.1.timestamp
      · have hneg : ¬ dLe x m := by simp only [dLe]; omega
        rw [if_neg hneg]
        simp [firstMinD, hm, hc]
      · have hpos : dLe x m := by simp only [dLe]; omega
        rw [if_pos hpos]
        simp [firstMinD, hm, hc]

theorem timesort_head (l : List DEntry) : (timesort l).head? = firstMinD l :=
  head_insertionSort l

theorem lookupA_append {α : Type} (l₁ l₂ : List (String × α)) (key : String) :
    lookupA (l₁ ++ l₂) key =
      match lookupA l₁ key with
      | some v => some v
      | none => lookupA l₂ key := by
  induction l₁ with
  | nil => simp [lookupA]
  | cons p rest ih =>
    obtain ⟨k, v⟩ := p
    by_cases h : k = key <;> simp [lookupA, h, ih]

theorem lookupA_eq_none_iff {α : Type} (l : List (String × α)) (key : String) :
    lookupA l key = none ↔ key ∉ l.map Prod.fst := by
  induction l with
  | nil => simp [lookupA]
  | cons p rest ih =>
    obtain ⟨k, v⟩ := p
    by_cases h : k = key <;> (simp [lookupA, h, ih]; try tauto)

theorem lookupA_isSome_of_mem_keys {α : Type} {l : List (String × α)} {key : String}
    (h : key ∈ l.map Prod.fst) : ∃ v, lookupA l key = some v := by
  cases hl : lookupA l key with
  | none => exact absurd ((lookupA_eq_none_iff l key).mp hl) (not_not_intro h)
  | some v => exact ⟨v, rfl⟩

theorem fst_updateA {α : Type} (l : List (String × α)) (k : String) (v : α) :
    (updateA l k v).map Prod.fst = l.map Prod.fst := by
  induction l with
  | nil => rfl
  | cons p rest ih =>
    by_cases h : p.1 = k <;> simp [updateA, h] <;>
      simpa [updateA, h] using ih

theorem length_updateA {α : Type} (l : List (String × α)) (k : String) (v : α) :
    (updateA l k v).length = l.length := by
  simp [updateA]

theorem updateA_cons {α : Type} (p : String × α) (rest : List (String × α))
    (k : String) (v : α) :
    updateA (p :: rest) k v = (if p.1 = k then (k, v) else p) :: updateA rest k v := by
  simp [updateA]

theorem lookupA_updateA_self {α : Type} {l : List (String × α)} {k : String}
    {n : α} (h : lookupA l k = some n) (v : α) :
    lookupA (updateA l k v) k = some v := by
  induction l with
  | nil => simp [lookupA] at h
  | cons p rest ih =>
    obtain ⟨k', v'⟩ := p
    rw [updateA_cons]
    by_cases hk : k' = k
    · rw [if_pos hk]
      simp [lookupA]
    · rw [if_neg hk]
      rw [lookupA] at h ⊢
      rw [if_neg hk] at h ⊢
      exact ih h

theorem lookupA_updateA_ne {α : Type} (l : List (String × α)) {k key : String}
    (h : key ≠ k) (v : α) : lookupA (updateA l k v) key = lookupA l key := by
  induction l with
  | nil => rfl
  | cons p rest ih =>
    obtain ⟨k', v'⟩ := p
    rw [updateA_cons]
    by_cases hk : k' = k
    · rw [if_pos hk]
      rw [lookupA, lookupA, if_neg (Ne.symm h), if_neg ?_]
      · exact ih
      · rw [hk]; exact Ne.symm h
    · rw [if_neg hk, lookupA, lookupA]
      by_cases hkey : k' = key
      · rw [if_pos hkey, if_pos hkey]
      · rw [if_neg hkey, if_neg hkey]
        exact ih

theorem updateA_of_not_mem {α : Type} {l : List (String × α)} {k : String}
    (h : k ∉ l.map Prod.fst) (v : α) : updateA l k v = l := by
  induction l with
  | nil => rfl
  | cons p rest ih =>
    simp only [List.map_cons, List.mem_cons, not_or] at h
    rw [updateA_cons, if_neg fun hc => h.1 hc.symm,
      ih fun hc => h.2 hc]

theorem keysOk_incrCount {c : List (String × Nat)} (h : keysOk c) (et : String) :
    keysOk (incrCount c et) := by
  unfold incrCount
  cases hl : lookupA c et with
  | some n =>
    unfold keysOk
    rw [fst_updateA]
    exact h
  | none =>
    unfold keysOk
    rw [List.map_append]
    simp only [List.map_cons, List.map_nil]
    rw [List.nodup_append]
    refine ⟨h, List.nodup_singleton et, ?_⟩
    intro a ha hb
    simp at hb
    subst hb
    exact (lookupA_eq_none_iff c _).mp hl ha

theorem countOf_incrCount_self (c : List (String × Nat)) (et : String) :
    countOf (incrCount c et) et = countOf c et + 1 := by
  cases hl : lookupA c et with
  | some n =>
    rw [incrCount, hl, countOf, countOf,
      lookupA_updateA_self hl (n + 1), hl]
    rfl
  | none =>
    rw [incrCount, hl, countOf, countOf, lookupA_append, hl]
    simp [lookupA]

theorem countOf_incrCount_ne (c : List (String × Nat)) {et et' : String}
    (h : et' ≠ et) : countOf (incrCount c et) et' = countOf c et' := by
  cases hl : lookupA c et with
  | some n => rw [incrCount, hl, countOf, countOf, lookupA_updateA_ne c h (n + 1)]
  | none =>
    rw [incrCount, hl, countOf, countOf, lookupA_append]
    cases hl' : lookupA c et' with
    | some m => rfl
    | none => simp [lookupA, Ne.symm h]

theorem countsSum_updateA_succ {c : List (String × Nat)} (h : keysOk c)
    {et : String} {n : Nat} (hl : lookupA c et = some n) :
    countsSum (updateA c et (n + 1)) = countsSum c + 1 := by
  induction c with
  | nil => simp [lookupA] at hl
  | cons p rest ih =>
    obtain ⟨k, v⟩ := p
    rw [updateA_cons]
    by_cases hk : k = et
    · rw [if_pos hk]
      subst hk
      rw [lookupA, if_pos rfl] at hl
      have hnotin : k ∉ rest.map Prod.fst := by
        unfold keysOk at h
        rw [List.map_cons, List.nodup_cons] at h
        exact h.1
      rw [updateA_of_not_mem hnotin]
      simp only [countsSum, List.map_cons, List.sum_cons]
      have hv : v = n := by injection hl
      omega
    · rw [if_neg hk]
      rw [lookupA, if_neg hk] at hl
      have h' : keysOk rest := by
        unfold keysOk at h ⊢
        simp at h
        exact h.2
      have := ih h' hl
      simp only [countsSum, List.map_cons, List.sum_cons] at this ⊢
      omega

theorem countsSum_incrCount {c : List (String × Nat)} (h : keysOk c) (et : String) :
    countsSum (incrCount c et) = countsSum c + 1 := by
  cases hl : lookupA c et with
  | some n =>
    rw [incrCount, hl]
    exact countsSum_updateA_succ h hl
  | none =>
    rw [incrCount, hl]
    simp only [countsSum, List.map_append, List.sum_append, List.map_cons,
      List.map_nil, List.sum_cons, List.sum_nil]
    omega

theorem countsFold_append (events : List Event) (e : Event) :
    countsFold (events ++ [e]) = incrCount (countsFold events) e.event_type := by
  unfold countsFold
  rw [List.foldl_append]
  rfl

theorem keysOk_countsFold (events : List Event) : keysOk (countsFold events) := by
  have hgen : ∀ (evs : List Event) (c : List (String × Nat)), keysOk c →
      keysOk (evs.foldl (fun c e => incrCount c e.event_type) c) := by
    intro evs
    induction evs with
    | nil => intro c hc; exact hc
    | cons e rest ih =>
      intro c hc
      exact ih _ (keysOk_incrCount hc e.event_type)
  exact hgen events [] (by simp [keysOk])

theorem countOf_countsFold (events : List Event) (et : String) :
    countOf (countsFold events) et =
      events.countP (fun e => e.event_type == et) := by
  have hgen : ∀ (evs : List Event) (c : List (String × Nat)),
      countOf (evs.foldl (fun c e => incrCount c e.event_type) c) et =
        countOf c et + evs.countP (fun e => e.event_type == et) := by
    intro evs
    induction evs with
    | nil => intro c; simp
    | cons e rest ih =>
      intro c
      rw [List.foldl_cons, ih, List.countP_cons]
      by_cases he : e.event_type = et
      · rw [he, countOf_incrCount_self]
        simp
        omega
      · rw [countOf_incrCount_ne c (Ne.symm he)]
        have : (e.event_type == et) = false := by
          simp [he]
        rw [this]
        simp
  rw [countsFold, hgen events []]
  simp [countOf, lookupA]

theorem countsSum_countsFold (events : List Event) :
    countsSum (countsFold events) = events.length := by
  have hgen : ∀ (evs : List Event) (c : List (String × Nat)), keysOk c →
      countsSum (evs.foldl (fun c e => incrCount c e.event_type) c) =
        countsSum c + evs.length := by
    intro evs
    induction evs with
    | nil => intro c _; simp
    | cons e rest ih =>
      intro c hc
      rw [List.foldl_cons, ih _ (keysOk_incrCount hc e.event_type),
        countsSum_incrCount hc]
      simp
      omega
  rw [countsFold, hgen events [] (by simp [keysOk])]
  simp [countsSum]

/-- Running the scan from an accumulated candidate: either no record beats
the candidate (all timestamps at least `ots`), or the result is the first
record of the list that attains the running minimum, every earlier record
being strictly later than it. -/
theorem findOldestGo_spec :
    ∀ (l : List (String × Record)) (opt : String) (ots : Nat),
      (findOldestGo opt ots l = (opt, ots) ∧ ∀ x ∈ l, ots ≤ x.2.timestamp) ∨
      (∃ p entry q, l = p ++ entry :: q ∧
        findOldestGo opt ots l = (entry.1, entry.2.timestamp) ∧
        entry.2.timestamp < ots ∧
        (∀ x ∈ p, entry.2.timestamp < x.2.timestamp) ∧
        (∀ x ∈ l, entry.2.timestamp ≤ x.2.timestamp)) := by
  intro l
  induction l with
  | nil =>
    intro opt ots
    left
    exact ⟨rfl, by simp⟩
  | cons hd rest ih =>
    intro opt ots
    obtain ⟨pt, data⟩ := hd
    by_cases hlt : data.timestamp < ots
    · have hgo : findOldestGo opt ots ((pt, data) :: rest) =
          findOldestGo pt data.timestamp rest := by
        rw [findOldestGo, if_pos hlt]
      rcases ih pt data.timestamp with ⟨heq, hall⟩ |
        ⟨p, entry, q, hsplit, heq, hlt2, hbefore, hall⟩
      · right
        refine ⟨[], (pt, data), rest, by simp, ?_, hlt, by simp, ?_⟩
        · rw [hgo, heq]
        · intro x hx
          rcases List.mem_cons.mp hx with h | h
          · rw [h]
          · exact hall x h
      · right
        refine ⟨(pt, data) :: p, entry, q, by rw [hsplit]; rfl, ?_, by omega, ?_, ?_⟩
        · rw [hgo, heq]
        · intro x hx
          rcases List.mem_cons.mp hx with h | h
          · rw [h]; dsimp only; omega
          · exact hbefore x h
        · intro x hx
          rcases List.mem_cons.mp hx with h | h
          · rw [h]; dsimp only; omega
          · exact hall x (hsplit ▸ h)
    · have hgo : findOldestGo opt ots ((pt, data) :: rest) =
          findOldestGo opt ots rest := by
        rw [findOldestGo, if_neg hlt]
      rcases ih opt ots with ⟨heq, hall⟩ |
        ⟨p, entry, q, hsplit, heq, hlt2, hbefore, hall⟩
      · left
        refine ⟨by rw [hgo, heq], ?_⟩
        intro x hx
        rcases List.mem_cons.mp hx with h | h
        · rw [h]; dsimp only; omega
        · exact hall x h
      · right
        refine ⟨(pt, data) :: p, entry, q, by rw [hsplit]; rfl, ?_, hlt2, ?_, ?_⟩
        · rw [hgo, heq]
        · intro x hx
          rcases List.mem_cons.mp hx with h | h
          · rw [h]; dsimp only; omega
          · exact hbefore x h
        · intro x hx
          rcases List.mem_cons.mp hx with h | h
          · rw [h]; dsimp only; omega
          · exact hall x (hsplit ▸ h)

/-- The eviction scan of a non-empty window finds the record with the
minimal `last_update`, and among ties the one earliest in the window's
iteration (insertion) order: every record before it is strictly later. -/
theorem findOldest_spec {l : List (String × Record)} (h : l ≠ []) :
    ∃ opt ots p rec q, findOldest l = some (opt, ots) ∧
      l = p ++ (opt, rec) :: q ∧ rec.timestamp = ots ∧
      (∀ x ∈ p, ots < x.2.timestamp) ∧ (∀ x ∈ l, ots ≤ x.2.timestamp) := by
  cases l with
  | nil => exact absurd rfl h
  | cons hd rest =>
    obtain ⟨pt, data⟩ := hd
    rcases findOldestGo_spec rest pt data.timestamp with ⟨heq, hall⟩ |
      ⟨p, entry, q, hsplit, heq, hlt, hbefore, hall⟩
    · refine ⟨pt, data.timestamp, [], data, rest, ?_, rfl, rfl, by simp, ?_⟩
      · rw [findOldest, heq]
      · intro x hx
        rcases List.mem_cons.mp hx with h | h
        · rw [h]
        · exact hall x h
    · refine ⟨entry.1, entry.2.timestamp, (pt, data) :: p, entry.2, q, ?_, ?_, rfl, ?_, ?_⟩
      · rw [findOldest, heq]
      · rw [hsplit]; simp
      · intro x hx
        rcases List.mem_cons.mp hx with h | h
        · rw [h]; dsimp only; omega
        · exact hbefore x h
      · intro x hx
        rcases List.mem_cons.mp hx with h | h
        · rw [h]; dsimp only; omega
        · exact hall x (hsplit ▸ h)

/-- The key returned by the eviction scan is present in the window, and its
timestamp is minimal over the window. -/
theorem findOldest_sound {l : List (String × Record)} {opt : String} {ots : Nat}
    (h : findOldest l = some (opt, ots)) :
    (∃ rec, (opt, rec) ∈ l ∧ rec.timestamp = ots) ∧
      ∀ x ∈ l, ots ≤ x.2.timestamp := by
  have hne : l ≠ [] := by
    intro hl
    rw [hl] at h
    simp [findOldest] at h
  obtain ⟨opt', ots', p, rec, q, heq, hsplit, hts, _, hall⟩ := findOldest_spec hne
  rw [h] at heq
  have hpair := Option.some.inj heq
  have h1 : opt = opt' := congrArg Prod.fst hpair
  have h2 : ots = ots' := congrArg Prod.snd hpair
  subst h1
  subst h2
  exact ⟨⟨rec, by rw [hsplit]; simp, hts⟩, hall⟩

theorem joinSep_append (sep x : String) :
    ∀ l : List String, joinSep sep (l ++ [x]) =
      if l.isEmpty then x else joinSep sep l ++ sep ++ x := by
  intro l
  induction l with
  | nil => simp [joinSep]
  | cons a t ih =>
    cases t with
    | nil => simp [joinSep]
    | cons b t' =>
      rw [List.cons_append, List.cons_append]
      rw [joinSep]
      rw [← List.cons_append]
      rw [ih]
      simp only [List.isEmpty_cons, if_neg Bool.false_ne_true]
      rw [joinSep]
      simp [String.append_assoc]

theorem sinkOk_initState : sinkOk initState := by
  constructor <;> rfl

theorem sinkOk_emitRecord {s : ProcState} (h : sinkOk s) (pid : String)
    (data : Record) : sinkOk (emitRecord s pid data) := by
  obtain ⟨htext, hfirst⟩ := h
  unfold sinkOk emitRecord writedata
  dsimp only
  constructor
  · rw [List.map_append, List.map_cons, List.map_nil, joinSep_append]
    cases hfl : s.flushed with
    | nil =>
      rw [hfl] at htext hfirst
      rw [htext, hfirst]
      simp only [List.map_nil, List.isEmpty_nil, if_pos rfl, joinSep]
      rw [String.empty_append]
      rfl
    | cons pr rest =>
      rw [hfl] at htext hfirst
      rw [htext, hfirst]
      simp only [List.map_cons, List.isEmpty_cons, if_neg Bool.false_ne_true]
      rw [String.append_assoc]
      rfl
  · simp

theorem PInv_initState {K : Int} (hK : 0 ≤ K) : PInv K [] initState := by
  refine ⟨?_, rfl, rfl, sinkOk_initState⟩
  simp [initState]
  omega

/-- Line 214 taken with a duplicate field (lines 215–222): flush the current
record as-is, then restart with only the incoming field. -/
theorem step_eq_dup {K : Int} {s : ProcState} {row : Event} {rec : Record}
    (hl : lookupA s.patients row.patient_id = some rec)
    (hf : hasField rec row.event_type = true) :
    step K s row = some { s with
      counts := incrCount s.counts row.event_type,
      nrows := s.nrows + 1,
      sink := writedata s.sink row.patient_id rec,
      flushed := s.flushed ++ [(row.patient_id, rec)],
      patients := updateA s.patients row.patient_id
        ⟨[(row.event_type, row.value)], row.timestamp⟩ } := by
  unfold step
  dsimp only
  rw [hl]
  dsimp only
  rw [if_pos hf]
  rfl

/-- Lines 223–226: existing patient, new field, update the record in place. -/
theorem step_eq_update {K : Int} {s : ProcState} {row : Event} {rec : Record}
    (hl : lookupA s.patients row.patient_id = some rec)
    (hf : hasField rec row.event_type = false) :
    step K s row = some { s with
      counts := incrCount s.counts row.event_type,
      nrows := s.nrows + 1,
      patients := updateA s.patients row.patient_id
        ⟨rec.fields ++ [(row.event_type, row.value)], row.timestamp⟩ } := by
  unfold step
  dsimp only
  rw [hl]
  dsimp only
  rw [if_neg (by rw [hf]; exact Bool.false_ne_true)]

/-- Lines 231–251 with the window over capacity: evict the record found by
the scan, then insert the new patient. -/
theorem step_eq_evict {K : Int} {s : ProcState} {row : Event}
    {opt : String} {ots : Nat} {orec : Record}
    (hl : lookupA s.patients row.patient_id = none)
    (hroom : (s.patients.length : Int) > K)
    (hfind : findOldest s.patients = some (opt, ots))
    (horec : lookupA s.patients opt = some orec) :
    step K s row = some { s with
      counts := incrCount s.counts row.event_type,
      nrows := s.nrows + 1,
      sink := writedata s.sink opt orec,
      flushed := s.flushed ++ [(opt, orec)],
      patients := removeA s.patients opt ++
        [(row.patient_id, ⟨[(row.event_type, row.value)], row.timestamp⟩)] } := by
  unfold step
  dsimp only
  rw [hl]
  dsimp only
  rw [if_pos hroom, hfind]
  dsimp only
  rw [horec]
  rfl

/-- Lines 228–251 with room in the window: just insert the new patient. -/
theorem step_eq_insert {K : Int} {s : ProcState} {row : Event}
    (hl : lookupA s.patients row.patient_id = none)
    (hroom : ¬ (s.patients.length : Int) > K) :
    step K s row = some { s with
      counts := incrCount s.counts row.event_type,
      nrows := s.nrows + 1,
      patients := s.patients ++
        [(row.patient_id, ⟨[(row.event_type, row.value)], row.timestamp⟩)] } := by
  unfold step
  dsimp only
  rw [hl]
  dsimp only
  rw [if_neg hroom]

/-- One loop iteration from an invariant state never crashes and preserves
the invariant. -/
theorem step_inv {K : Int} (hK : 0 ≤ K) {events : List Event} {s : ProcState}
    (h : PInv K events s) (row : Event) :
    ∃ s', step K s row = some s' ∧ PInv K (events ++ [row]) s' := by
  obtain ⟨hlen, hcounts, hnrows, hsink⟩ := h
  have hcounts' : incrCount s.counts row.event_type = countsFold (events ++ [row]) := by
    rw [countsFold_append, hcounts]
  have hnrows' : s.nrows + 1 = (events ++ [row]).length := by
    rw [List.length_append, hnrows]
    rfl
  cases hl : lookupA s.patients row.patient_id with
  | some rec =>
    cases hf : hasField rec row.event_type with
    | true =>
      refine ⟨_, step_eq_dup hl hf, ?_, hcounts', hnrows', ?_⟩
      · show ((updateA s.patients row.patient_id _).length : Int) ≤ K + 1
        rw [length_updateA]
        exact hlen
      · exact sinkOk_emitRecord hsink row.patient_id rec
    | false =>
      refine ⟨_, step_eq_update hl hf, ?_, hcounts', hnrows', hsink⟩
      show ((updateA s.patients row.patient_id _).length : Int) ≤ K + 1
      rw [length_updateA]
      exact hlen
  | none =>
    by_cases hroom : (s.patients.length : Int) > K
    · have hne : s.patients ≠ [] := by
        intro hnil
        rw [hnil] at hroom
        simp at hroom
        omega
      obtain ⟨opt, ots, p, rec, q, hfind, hsplit, hts, _, _⟩ := findOldest_spec hne
      have hmem : (opt, rec) ∈ s.patients := by rw [hsplit]; simp
      have hkey : opt ∈ s.patients.map Prod.fst := List.mem_map.mpr ⟨_, hmem, rfl⟩
      obtain ⟨orec, horec⟩ := lookupA_isSome_of_mem_keys hkey
      refine ⟨_, step_eq_evict hl hroom hfind horec, ?_, hcounts', hnrows', ?_⟩
      · show (((removeA s.patients opt ++ _).length : Nat) : Int) ≤ K + 1
        rw [List.length_append]
        unfold removeA
        rw [List.length_eraseP_of_mem hmem (by simp)]
        have hpos : 0 < s.patients.length := List.length_pos.mpr hne
        simp only [List.length_cons, List.length_nil]
        push_cast
        omega
      · exact sinkOk_emitRecord hsink opt orec
    · refine ⟨_, step_eq_insert hl hroom, ?_, hcounts', hnrows', hsink⟩
      show (((s.patients ++ _).length : Nat) : Int) ≤ K + 1
      rw [List.length_append]
      simp only [List.length_cons, List.length_nil]
      push_cast
      omega

/-- The whole loop from an invariant state: every prefix of rows is consumed
without crashing and re-establishes the invariant. -/
theorem foldl_step_inv {K : Int} (hK : 0 ≤ K) :
    ∀ (rest : List Event) (events : List Event) (s : ProcState),
      PInv K events s →
      ∃ s', List.foldlM (step K) s rest = some s' ∧ PInv K (events ++ rest) s' := by
  intro rest
  induction rest with
  | nil =>
    intro events s h
    exact ⟨s, rfl, by simpa using h⟩
  | cons row rest' ih =>
    intro events s h
    obtain ⟨s1, hs1, hinv1⟩ := step_inv hK h row
    obtain ⟨s', hs', hinv'⟩ := ih (events ++ [row]) s1 hinv1
    refine ⟨s', ?_, by simpa using hinv'⟩
    rw [List.foldlM_cons, hs1]
    exact hs'

/-- `Process.process` consumes any merged row sequence without crashing, and
the final state satisfies the loop invariant. -/
theorem processEvents_inv {K : Int} (hK : 0 ≤ K) (events : List Event) :
    ∃ s, processEvents K events = some s ∧ PInv K events s := by
  obtain ⟨s, hs, hinv⟩ := foldl_step_inv hK events [] initState (PInv_initState hK)
  exact ⟨s, hs, by simpa using hinv⟩

theorem sinkOk_foldl_emit :
    ∀ (l : List (String × Record)) (s : ProcState), sinkOk s →
      sinkOk (l.foldl (fun s' pd => emitRecord s' pd.1 pd.2) s) := by
  intro l
  induction l with
  | nil => intro s h; exact h
  | cons pd rest ih =>
    intro s h
    exact ih _ (sinkOk_emitRecord h pd.1 pd.2)

theorem sinkOk_drain {s : ProcState} (h : sinkOk s) : sinkOk (drain s) :=
  sinkOk_foldl_emit s.patients s h

/-- C1: for every capacity `K ≥ 0` and every merged input sequence of
events, processing never crashes and the Active Window (`patients`) holds at
most `K + 1` records; since this holds for every sequence, it holds after
every prefix of a run, i.e. at every point during processing.  Eviction is
evaluated before inserting a new patient key exactly when the size already
strictly exceeds `K` (`len(patients) > npatients`, line 231), so the
transient size `K + 1` is the largest the window ever reaches. -/
theorem C1_bounded_window (K : Int) (hK : 0 ≤ K) (events : List Event) :
    ∃ s, processEvents K events = some s ∧ (s.patients.length : Int) ≤ K + 1 := by
  obtain ⟨s, hs, hlen, _, _, _⟩ := processEvents_inv hK events
  exact ⟨s, hs, hlen⟩

theorem C1_bounded_window_witness :
    (0 : Int) ≤ 1 ∧
    ∃ s, processEvents 1
        [⟨"A", "HR", 1, 1⟩, ⟨"B", "HR", 2, 2⟩, ⟨"C", "HR", 3, 3⟩] = some s ∧
      (s.patients.length : Int) ≤ 1 + 1 :=
  ⟨by norm_num, C1_bounded_window 1 (by norm_num)
    [⟨"A", "HR", 1, 1⟩, ⟨"B", "HR", 2, 2⟩, ⟨"C", "HR", 3, 3⟩]⟩

/-- C2: for every finite set of input streams, each individually
non-decreasing in timestamp, the sequence of events emitted by the `Multi`
merger is globally non-decreasing in timestamp. -/
theorem C2_merge_sorted (streams : List (List Event))
    (h : ∀ st ∈ streams, List.Pairwise evLe st) :
    List.Pairwise evLe (multiRun (multiInit streams)) := by
  unfold multiRun
  exact multiRunF_sorted _ _ (Nat.le_refl _) (multiInit_invM h)

theorem C2_merge_sorted_witness :
    (∀ st ∈ [[(⟨"P1", "HR", 1000, 60⟩ : Event), ⟨"P1", "HR", 1002, 65⟩],
        [⟨"P2", "SpO2", 1001, 97⟩]], List.Pairwise evLe st) ∧
    List.Pairwise evLe (multiRun (multiInit
      [[⟨"P1", "HR", 1000, 60⟩, ⟨"P1", "HR", 1002, 65⟩],
        [⟨"P2", "SpO2", 1001, 97⟩]])) :=
  ⟨by decide, C2_merge_sorted _ (by decide)⟩

/-- C3 counterexample: with stream 1 = `[hr@5]` registered first and stream 2
= `[sp@1, bp@5]` registered second, after the first emission (`sp@1`) both
sources are still live and their heads `hr@5` (source 1) and `bp@5`
(source 2) share timestamp 5; the merger emits `bp@5`, the head of the
source registered *second*, because the just-advanced source's new head is
re-sorted in front of the equal-timestamp head of source 1.  This refutes
"the head belonging to the source that was registered first wins every
tie". -/
theorem C3_counterexample :
    multiNext (multiInit [[⟨"p", "hr", 5, 1⟩], [⟨"q", "sp", 1, 2⟩, ⟨"q", "bp", 5, 3⟩]]) =
      some (⟨"q", "sp", 1, 2⟩, [(⟨"q", "bp", 5, 3⟩, []), (⟨"p", "hr", 5, 1⟩, [])]) ∧
    multiNext [(⟨"q", "bp", 5, 3⟩, []), (⟨"p", "hr", 5, 1⟩, [])] =
      some (⟨"q", "bp", 5, 3⟩, [(⟨"p", "hr", 5, 1⟩, [])]) ∧
    (⟨"q", "bp", 5, 3⟩ : Event).timestamp = (⟨"p", "hr", 5, 1⟩ : Event).timestamp ∧
    multiRun (multiInit [[⟨"p", "hr", 5, 1⟩], [⟨"q", "sp", 1, 2⟩, ⟨"q", "bp", 5, 3⟩]]) =
      [⟨"q", "sp", 1, 2⟩, ⟨"q", "bp", 5, 3⟩, ⟨"p", "hr", 5, 1⟩] := by
  refine ⟨?_, ?_, rfl, ?_⟩ <;> decide

/-- C3 amended: the tie-break is deterministic, but it is the *current order
of the merger's internal sorted list*, not registration order: at every
selection the merger emits the head row of the first entry of its list (in
the list's pre-sort order) that attains the minimal timestamp — the scan
displaces an earlier entry only for a strictly smaller timestamp.  The
internal order coincides with registration order at initialization, so
first-registered wins ties only until a tying source has been advanced;
after an advance, the advanced source is ordered before other
equal-timestamp heads. -/
theorem C3_amended_tiebreak (datas : List DEntry) (h : datas ≠ []) :
    ∃ d s', firstMinD datas = some d ∧
      multiNext (timesort datas) = some (d.1, s') := by
  have hhead := timesort_head datas
  cases hts : timesort datas with
  | nil =>
    have hnil : datas = [] := by
      have hp := timesort_perm datas
      rw [hts] at hp
      exact List.perm_nil.mp hp.symm
    exact absurd hnil h
  | cons d t =>
    rw [hts] at hhead
    obtain ⟨row, rest⟩ := d
    cases rest with
    | nil => exact ⟨(row, []), t, hhead.symm, rfl⟩
    | cons r rs => exact ⟨(row, r :: rs), timesort ((r, rs) :: t), hhead.symm, rfl⟩

theorem C3_amended_tiebreak_witness :
    ([((⟨"q", "bp", 5, 3⟩ : Event), ([] : List Event)), (⟨"p", "hr", 5, 1⟩, [])] ≠
      ([] : List DEntry)) ∧
    ∃ d s', firstMinD [((⟨"q", "bp", 5, 3⟩ : Event), ([] : List Event)),
        (⟨"p", "hr", 5, 1⟩, [])] = some d ∧
      multiNext (timesort [((⟨"q", "bp", 5, 3⟩ : Event), ([] : List Event)),
        (⟨"p", "hr", 5, 1⟩, [])]) = some (d.1, s') :=
  ⟨by decide, C3_amended_tiebreak _ (by decide)⟩

/-- C8: if the requested export ID is not among the export IDs reported by
the collaborator, the run prints an error message, exits with status 1, and
never opens the output file. -/
theorem C8_unknown_export (exportID : String) (export_ids : List String)
    (h : exportID ∉ export_ids) :
    (processTop exportID export_ids).exitCode = some 1 ∧
    (processTop exportID export_ids).errMessage ≠ none ∧
    (processTop exportID export_ids).outputOpened = false := by
  unfold processTop
  rw [if_neg h]
  exact ⟨rfl, by simp, rfl⟩

theorem C8_unknown_export_witness :
    ("x" ∉ ["a", "b"]) ∧
    ((processTop "x" ["a", "b"]).exitCode = some 1 ∧
      (processTop "x" ["a", "b"]).errMessage ≠ none ∧
      (processTop "x" ["a", "b"]).outputOpened = false) :=
  ⟨by decide, C8_unknown_export "x" ["a", "b"] (by decide)⟩

/-- C9: the eviction scan is deterministic on ties: it returns the record
with the minimal `last_update`, and when several records tie it returns the
tied record that occurs first in the window's insertion (iteration) order —
every record strictly before the returned one has a strictly larger
timestamp, because the scan replaces its candidate only on a strictly
smaller timestamp. -/
theorem C9_eviction_tiebreak (patients : List (String × Record))
    (h : patients ≠ []) :
    ∃ opt ots p rec q, findOldest patients = some (opt, ots) ∧
      patients = p ++ (opt, rec) :: q ∧ rec.timestamp = ots ∧
      (∀ x ∈ p, ots < x.2.timestamp) ∧
      (∀ x ∈ patients, ots ≤ x.2.timestamp) :=
  findOldest_spec h

theorem C9_eviction_tiebreak_witness :
    ([("A", (⟨[], 5⟩ : Record)), ("B", ⟨[], 5⟩)] ≠ []) ∧
    ∃ opt ots p rec q,
      findOldest [("A", (⟨[], 5⟩ : Record)), ("B", ⟨[], 5⟩)] = some (opt, ots) ∧
      [("A", (⟨[], 5⟩ : Record)), ("B", ⟨[], 5⟩)] = p ++ (opt, rec) :: q ∧
      rec.timestamp = ots ∧
      (∀ x ∈ p, ots < x.2.timestamp) ∧
      (∀ x ∈ [("A", (⟨[], 5⟩ : Record)), ("B", ⟨[], 5⟩)], ots ≤ x.2.timestamp) :=
  ⟨by decide, C9_eviction_tiebreak _ (by decide)⟩

/-- C10: whenever the eviction branch is entered (new patient while the
window size strictly exceeds `K`) with `K ≥ 0`, the window is non-empty, so
the minimum scan finds a record (`opt`/`ots` are bound) and the step
completes; the failure branch in which they stay unbound is unreachable. -/
theorem C10_eviction_safe (K : Int) (hK : 0 ≤ K) (s : ProcState) (row : Event)
    (hl : lookupA s.patients row.patient_id = none)
    (hroom : (s.patients.length : Int) > K) :
    (∃ opt ots, findOldest s.patients = some (opt, ots)) ∧
    ∃ s', step K s row = some s' := by
  have hne : s.patients ≠ [] := by
    intro hnil
    rw [hnil] at hroom
    simp at hroom
    omega
  obtain ⟨opt, ots, p, rec, q, hfind, hsplit, hts, _, _⟩ := findOldest_spec hne
  have hmem : (opt, rec) ∈ s.patients := by rw [hsplit]; simp
  have hkey : opt ∈ s.patients.map Prod.fst := List.mem_map.mpr ⟨_, hmem, rfl⟩
  obtain ⟨orec, horec⟩ := lookupA_isSome_of_mem_keys hkey
  exact ⟨⟨opt, ots, hfind⟩, _, step_eq_evict hl hroom hfind horec⟩

theorem C10_eviction_safe_witness :
    (0 : Int) ≤ 0 ∧
    lookupA (ProcState.patients
      ⟨[("HR", 1)], [("A", ⟨[("HR", 1)], 1⟩)], 1, ⟨true, ""⟩, []⟩) "B" = none ∧
    ((ProcState.patients
      ⟨[("HR", 1)], [("A", ⟨[("HR", 1)], 1⟩)], 1, ⟨true, ""⟩, []⟩).length : Int) > 0 ∧
    ((∃ opt ots, findOldest (ProcState.patients
        ⟨[("HR", 1)], [("A", ⟨[("HR", 1)], 1⟩)], 1, ⟨true, ""⟩, []⟩) = some (opt, ots)) ∧
      ∃ s', step 0 ⟨[("HR", 1)], [("A", ⟨[("HR", 1)], 1⟩)], 1, ⟨true, ""⟩, []⟩
        ⟨"B", "HR", 2, 2⟩ = some s') :=
  ⟨by norm_num, by decide, by decide,
    C10_eviction_safe 0 (by norm_num) _ _ (by decide) (by decide)⟩

/-- C4: for every set of finite input streams and capacity `K ≥ 0`, the
merger emits exactly as many events as the streams hold rows (it emits a
permutation of their concatenation); processing that sequence, the Totals
sum over all event types equals that same total, and each event type's
counter equals the number of input rows of that type — every input event
increments exactly its own counter exactly once, independently of how often
the record it updates is flushed or restarted, since the counters are a
function of the input rows alone. -/
theorem C4_conservation (streams : List (List Event)) (K : Int) (hK : 0 ≤ K) :
    (multiRun (multiInit streams)).length = (streams.map List.length).sum ∧
    ∃ s, processEvents K (multiRun (multiInit streams)) = some s ∧
      countsSum s.counts = (streams.map List.length).sum ∧
      ∀ et, countOf s.counts et =
        streams.flatten.countP (fun e => e.event_type == et) := by
  have hperm : (multiRun (multiInit streams)).Perm streams.flatten :=
    (multiRun_perm _).trans (stateEvents_multiInit streams)
  have hlen : (multiRun (multiInit streams)).length = (streams.map List.length).sum := by
    rw [hperm.length_eq, List.length_flatten]
  refine ⟨hlen, ?_⟩
  obtain ⟨s, hs, _, hcounts, _, _⟩ := processEvents_inv hK (multiRun (multiInit streams))
  refine ⟨s, hs, ?_, ?_⟩
  · rw [hcounts, countsSum_countsFold, hlen]
  · intro et
    rw [hcounts, countOf_countsFold, hperm.countP_eq]

theorem C4_conservation_witness :
    (0 : Int) ≤ 2 ∧
    ((multiRun (multiInit [[(⟨"P1", "HR", 1000, 60⟩ : Event), ⟨"P1", "HR", 1002, 65⟩],
        [⟨"P2", "SpO2", 1001, 97⟩]])).length =
      ([[(⟨"P1", "HR", 1000, 60⟩ : Event), ⟨"P1", "HR", 1002, 65⟩],
        [⟨"P2", "SpO2", 1001, 97⟩]].map List.length).sum ∧
    ∃ s, processEvents 2 (multiRun (multiInit
        [[⟨"P1", "HR", 1000, 60⟩, ⟨"P1", "HR", 1002, 65⟩],
          [⟨"P2", "SpO2", 1001, 97⟩]])) = some s ∧
      countsSum s.counts = ([[(⟨"P1", "HR", 1000, 60⟩ : Event), ⟨"P1", "HR", 1002, 65⟩],
        [⟨"P2", "SpO2", 1001, 97⟩]].map List.length).sum ∧
      ∀ et, countOf s.counts et =
        [[(⟨"P1", "HR", 1000, 60⟩ : Event), ⟨"P1", "HR", 1002, 65⟩],
          [⟨"P2", "SpO2", 1001, 97⟩]].flatten.countP (fun e => e.event_type == et)) :=
  ⟨by norm_num, C4_conservation _ 2 (by norm_num)⟩

/-- C5: when an event arrives for an active patient whose record already
holds that event type, the engine flushes the current record as-is (its
fields unchanged) and replaces it with a brand-new record containing only
the incoming event's field, with `last_update` equal to the incoming
timestamp; records of other patients are untouched.  The witness runs the
spec's scenario `(t1, HR, 70)`, `(t2, SpO2, 98)`, `(t3, HR, 72)`:
`{HR:70, SpO2:98}` is flushed at `t3` and `{HR:72}` stays active. -/
theorem C5_duplicate_restart (K : Int) (s : ProcState) (row : Event)
    (rec : Record)
    (hl : lookupA s.patients row.patient_id = some rec)
    (hf : hasField rec row.event_type = true) :
    ∃ s', step K s row = some s' ∧
      s'.flushed = s.flushed ++ [(row.patient_id, rec)] ∧
      lookupA s'.patients row.patient_id =
        some ⟨[(row.event_type, row.value)], row.timestamp⟩ ∧
      ∀ key, key ≠ row.patient_id →
        lookupA s'.patients key = lookupA s.patients key := by
  refine ⟨_, step_eq_dup hl hf, rfl, ?_, ?_⟩
  · exact lookupA_updateA_self hl _
  · intro key hk
    exact lookupA_updateA_ne _ hk _

theorem C5_duplicate_restart_witness :
    lookupA (ProcState.patients
        ⟨[("HR", 1), ("SpO2", 1)], [("P", ⟨[("HR", 70), ("SpO2", 98)], 2⟩)], 2,
          ⟨true, ""⟩, []⟩) "P" = some ⟨[("HR", 70), ("SpO2", 98)], 2⟩ ∧
    hasField ⟨[("HR", 70), ("SpO2", 98)], 2⟩ "HR" = true ∧
    ∃ s', step 5 ⟨[("HR", 1), ("SpO2", 1)],
        [("P", ⟨[("HR", 70), ("SpO2", 98)], 2⟩)], 2, ⟨true, ""⟩, []⟩
        ⟨"P", "HR", 3, 72⟩ = some s' ∧
      s'.flushed = [] ++ [("P", ⟨[("HR", 70), ("SpO2", 98)], 2⟩)] ∧
      lookupA s'.patients "P" = some ⟨[("HR", 72)], 3⟩ ∧
      ∀ key, key ≠ "P" →
        lookupA s'.patients key = lookupA (ProcState.patients
          ⟨[("HR", 1), ("SpO2", 1)], [("P", ⟨[("HR", 70), ("SpO2", 98)], 2⟩)], 2,
            ⟨true, ""⟩, []⟩) key :=
  ⟨by decide, by decide,
    C5_duplicate_restart 5
      ⟨[("HR", 1), ("SpO2", 1)], [("P", ⟨[("HR", 70), ("SpO2", 98)], 2⟩)], 2,
        ⟨true, ""⟩, []⟩
      ⟨"P", "HR", 3, 72⟩ ⟨[("HR", 70), ("SpO2", 98)], 2⟩ (by decide) (by decide)⟩

/-- C6: eviction triggers exactly when a new patient arrives while the
window size strictly exceeds `K`; it flushes a record whose `last_update` is
minimal over all active records, removes it, and then inserts the new
patient's record.  The witness runs the spec's scenario: `K = 1`, A updated
at `t=1` and B at `t=2` both active, C arrives at `t=3` — A is flushed,
B stays, C becomes active. -/
theorem C6_eviction_oldest (K : Int) (hK : 0 ≤ K) (s : ProcState) (row : Event)
    (hl : lookupA s.patients row.patient_id = none)
    (hroom : (s.patients.length : Int) > K) :
    ∃ opt ots orec s', findOldest s.patients = some (opt, ots) ∧
      lookupA s.patients opt = some orec ∧
      (∀ x ∈ s.patients, ots ≤ x.2.timestamp) ∧
      step K s row = some s' ∧
      s'.flushed = s.flushed ++ [(opt, orec)] ∧
      s'.patients = removeA s.patients opt ++
        [(row.patient_id, ⟨[(row.event_type, row.value)], row.timestamp⟩)] := by
  have hne : s.patients ≠ [] := by
    intro hnil
    rw [hnil] at hroom
    simp at hroom
    omega
  obtain ⟨opt, ots, p, rec, q, hfind, hsplit, hts, _, hall⟩ := findOldest_spec hne
  have hmem : (opt, rec) ∈ s.patients := by rw [hsplit]; simp
  have hkey : opt ∈ s.patients.map Prod.fst := List.mem_map.mpr ⟨_, hmem, rfl⟩
  obtain ⟨orec, horec⟩ := lookupA_isSome_of_mem_keys hkey
  exact ⟨opt, ots, orec, _, hfind, horec, hall,
    step_eq_evict hl hroom hfind horec, rfl, rfl⟩

theorem C6_eviction_oldest_witness :
    (0 : Int) ≤ 1 ∧
    lookupA (ProcState.patients
      ⟨[("HR", 2)], [("A", ⟨[("HR", 1)], 1⟩), ("B", ⟨[("HR", 2)], 2⟩)], 2,
        ⟨true, ""⟩, []⟩) "C" = none ∧
    ((ProcState.patients
      ⟨[("HR", 2)], [("A", ⟨[("HR", 1)], 1⟩), ("B", ⟨[("HR", 2)], 2⟩)], 2,
        ⟨true, ""⟩, []⟩).length : Int) > 1 ∧
    ∃ opt ots orec s',
      findOldest [("A", (⟨[("HR", 1)], 1⟩ : Record)), ("B", ⟨[("HR", 2)], 2⟩)] =
        some (opt, ots) ∧
      lookupA [("A", (⟨[("HR", 1)], 1⟩ : Record)), ("B", ⟨[("HR", 2)], 2⟩)] opt =
        some orec ∧
      (∀ x ∈ [("A", (⟨[("HR", 1)], 1⟩ : Record)), ("B", ⟨[("HR", 2)], 2⟩)],
        ots ≤ x.2.timestamp) ∧
      step 1 ⟨[("HR", 2)], [("A", ⟨[("HR", 1)], 1⟩), ("B", ⟨[("HR", 2)], 2⟩)], 2,
          ⟨true, ""⟩, []⟩ ⟨"C", "HR", 3, 3⟩ = some s' ∧
      s'.flushed = [] ++ [(opt, orec)] ∧
      s'.patients = removeA [("A", (⟨[("HR", 1)], 1⟩ : Record)),
          ("B", ⟨[("HR", 2)], 2⟩)] opt ++ [("C", ⟨[("HR", 3)], 3⟩)] :=
  ⟨by norm_num, by decide, by decide,
    C6_eviction_oldest 1 (by norm_num)
      ⟨[("HR", 2)], [("A", ⟨[("HR", 1)], 1⟩), ("B", ⟨[("HR", 2)], 2⟩)], 2,
        ⟨true, ""⟩, []⟩ ⟨"C", "HR", 3, 3⟩ (by decide) (by decide)⟩

/-- C7: on every run (loop plus end-of-input drain) the Sink's output is one
keyed entry per flushed record, in flush order, each mapping the patient id
to the record's fields with the internal `timestamp` bookkeeping entry
excluded (`entryOf` serializes only `fields`), with the separator line
placed exactly between consecutive entries — never before the first
(`firstpatient`) and never after the last. -/
theorem C7_sink_entries (K : Int) (hK : 0 ≤ K) (events : List Event) :
    ∃ s, processRun K events = some s ∧
      s.sink.text = joinSep ",\n" (s.flushed.map entryOf) ∧
      s.sink.firstpatient = s.flushed.isEmpty := by
  obtain ⟨s1, hs1, _, _, _, hsink⟩ := processEvents_inv hK events
  refine ⟨drain s1, ?_, sinkOk_drain hsink⟩
  rw [processRun, hs1]
  rfl

theorem C7_sink_entries_witness :
    (0 : Int) ≤ 2 ∧
    ∃ s, processRun 2
        [⟨"P1", "HR", 1000, 60⟩, ⟨"P2", "SpO2", 1001, 97⟩,
          ⟨"P1", "HR", 1002, 65⟩] = some s ∧
      s.sink.text = joinSep ",\n" (s.flushed.map entryOf) ∧
      s.sink.firstpatient = s.flushed.isEmpty :=
  ⟨by norm_num, C7_sink_entries 2 (by norm_num)
    [⟨"P1", "HR", 1000, 60⟩, ⟨"P2", "SpO2", 1001, 97⟩, ⟨"P1", "HR", 1002, 65⟩]⟩
